import Mathlib

/-!
Verification of the pySARAX core compiler (src/core.py, src/assembly.py,
src/section.py, src/cormesh.py) against its natural-language specification.

Python floats are modelled as exact rationals, Python lists as Lean lists.
Python sets of rationals are modelled as deduplicated lists (hash sets of
floats deduplicate by value); sorting a set is modelled as sorting the
deduplicated list.
-/

namespace PySARAX

/-! ## Axial mesh unifier: Core.meshing (src/core.py lines 118-185)

The buffer of the approximation loop is a Python set of heights; the code
observes it only through min, max, sum and len.  We keep it as a list
(nonempty lists are written as a head plus a tail) and read those four
quantities off the list. -/

/-- min of the approximation buffer (Python min over the set). -/
def bufMin (b : ℚ) (bs : List ℚ) : ℚ := bs.foldr min b

/-- max of the approximation buffer (Python max over the set). -/
def bufMax (b : ℚ) (bs : List ℚ) : ℚ := bs.foldr max b

/-- sum(approxBuffer) / len(approxBuffer): the arithmetic mean used when a
cluster is flushed into the meshgrid. -/
def bufMean (b : ℚ) (bs : List ℚ) : ℚ := (b + bs.sum) / (1 + bs.length)

/-- The approximation loop of Core.meshing (lines 141-165): scan the sorted
distinct heights left to right; a height joins the buffer when it is within
tolerance of both the buffer's min and max, otherwise the buffer is flushed
as its mean and a new buffer starts at the current height.  The trailing
buffer is flushed at the end. -/
def approxScan (tol : ℚ) : List ℚ → List ℚ → List ℚ
  | [], [] => []
  | [], b :: bs => [bufMean b bs]
  | h :: rest, [] => approxScan tol rest [h]
  | h :: rest, b :: bs =>
    if |h - bufMin b bs| ≤ tol ∧ |h - bufMax b bs| ≤ tol then
      approxScan tol rest (b :: (bs ++ [h]))
    else
      bufMean b bs :: approxScan tol rest [h]

/-- heights = sorted(set of all section bounds) (lines 134-138).  Sections
enter only through their bounds, kept here as (lower, upper) pairs. -/
def collectHeights (secs : List (ℚ × ℚ)) : List ℚ :=
  List.insertionSort (· ≤ ·) ((secs.flatMap fun s => [s.1, s.2]).dedup)

/-- The meshgrid computed by Core.meshing before the snapping phase
(lines 134-169): cluster the sorted distinct heights, put the cluster means
into a set, and sort it. -/
def meshingGrid (secs : List (ℚ × ℚ)) (tol : ℚ) : List ℚ :=
  List.insertionSort (· ≤ ·) ((approxScan tol (collectHeights secs) []).dedup)

theorem bufMax_cons (b x : ℚ) (xs : List ℚ) :
    bufMax b (x :: xs) = max x (bufMax b xs) := rfl

theorem bufMin_cons (b x : ℚ) (xs : List ℚ) :
    bufMin b (x :: xs) = min x (bufMin b xs) := rfl

theorem bufMin_le_bufMax (b : ℚ) (bs : List ℚ) : bufMin b bs ≤ bufMax b bs := by
  induction bs with
  | nil => exact le_refl b
  | cons x xs ih =>
    rw [bufMin_cons, bufMax_cons]
    exact le_trans (min_le_right _ _) (le_trans ih (le_max_right _ _))

theorem bufMax_append (b h : ℚ) (bs : List ℚ) :
    bufMax b (bs ++ [h]) = max h (bufMax b bs) := by
  induction bs with
  | nil => rfl
  | cons x xs ih =>
    rw [List.cons_append, bufMax_cons, ih, bufMax_cons, max_left_comm]

theorem bufMin_append (b h : ℚ) (bs : List ℚ) :
    bufMin b (bs ++ [h]) = min h (bufMin b bs) := by
  induction bs with
  | nil => rfl
  | cons x xs ih =>
    rw [List.cons_append, bufMin_cons, ih, bufMin_cons, min_left_comm]

theorem sum_le_mul_bufMax (b : ℚ) (bs : List ℚ) :
    b + bs.sum ≤ (1 + bs.length) * bufMax b bs := by
  induction bs with
  | nil => simp [bufMax]
  | cons x xs ih =>
    have hx : x ≤ max x (bufMax b xs) := le_max_left _ _
    have hm : bufMax b xs ≤ max x (bufMax b xs) := le_max_right _ _
    have hlen : (0 : ℚ) ≤ 1 + xs.length := by positivity
    have hmul := mul_le_mul_of_nonneg_left hm hlen
    rw [bufMax_cons]
    push_cast [List.sum_cons, List.length_cons]
    nlinarith [ih]

theorem mul_bufMin_le_sum (b : ℚ) (bs : List ℚ) :
    (1 + bs.length) * bufMin b bs ≤ b + bs.sum := by
  induction bs with
  | nil => simp [bufMin]
  | cons x xs ih =>
    have hx : min x (bufMin b xs) ≤ x := min_le_left _ _
    have hm : min x (bufMin b xs) ≤ bufMin b xs := min_le_right _ _
    have hlen : (0 : ℚ) ≤ 1 + xs.length := by positivity
    have hmul := mul_le_mul_of_nonneg_left hm hlen
    rw [bufMin_cons]
    push_cast [List.sum_cons, List.length_cons]
    nlinarith [ih]

theorem bufMean_le_bufMax (b : ℚ) (bs : List ℚ) : bufMean b bs ≤ bufMax b bs := by
  rw [bufMean, div_le_iff₀ (by positivity)]
  linarith [sum_le_mul_bufMax b bs, mul_comm (1 + (bs.length : ℚ)) (bufMax b bs)]

theorem bufMin_le_bufMean (b : ℚ) (bs : List ℚ) : bufMin b bs ≤ bufMean b bs := by
  rw [bufMean, le_div_iff₀ (by positivity)]
  linarith [mul_bufMin_le_sum b bs, mul_comm (1 + (bs.length : ℚ)) (bufMin b bs)]

/-- Invariant of the approximation loop: on a strictly sorted input whose
elements all lie above the buffer max, the emitted cluster means are
strictly increasing and bounded below by the buffer min. -/
theorem approxScan_sorted_strong (tol : ℚ) (hs : List ℚ) :
    ∀ (b : ℚ) (bs : List ℚ), hs.Sorted (· < ·) → (∀ x ∈ hs, bufMax b bs < x) →
      (approxScan tol hs (b :: bs)).Sorted (· < ·) ∧
        ∀ y ∈ approxScan tol hs (b :: bs), bufMin b bs ≤ y := by
  induction hs with
  | nil =>
    intro b bs _ _
    constructor
    · exact List.sorted_singleton _
    · intro y hy
      rw [approxScan, List.mem_singleton] at hy
      exact hy ▸ bufMin_le_bufMean b bs
  | cons h rest ih =>
    intro b bs hsort hgt
    have hmaxh : bufMax b bs < h := hgt h (List.mem_cons_self h rest)
    have hrest : ∀ x ∈ rest, h < x := (List.sorted_cons.mp hsort).1
    rw [approxScan]
    split_ifs with hcond
    · -- the height joins the buffer
      have hmax' : ∀ x ∈ rest, bufMax b (bs ++ [h]) < x := by
        intro x hx
        rw [bufMax_append]
        exact max_lt (hrest x hx) (lt_trans hmaxh (hrest x hx))
      have hres := ih b (bs ++ [h]) (List.sorted_cons.mp hsort).2 hmax'
      refine ⟨hres.1, fun y hy => ?_⟩
      have := hres.2 y hy
      rw [bufMin_append, min_eq_right (le_of_lt (lt_of_le_of_lt (bufMin_le_bufMax b bs) hmaxh))] at this
      exact this
    · -- the buffer is flushed as its mean and restarted at the height
      have hrest' : ∀ x ∈ rest, bufMax h [] < x := fun x hx => hrest x hx
      have hres := ih h [] (List.sorted_cons.mp hsort).2 hrest'
      have hhead : ∀ y ∈ approxScan tol rest [h], bufMean b bs < y := by
        intro y hy
        exact lt_of_le_of_lt (bufMean_le_bufMax b bs) (lt_of_lt_of_le hmaxh (hres.2 y hy))
      constructor
      · exact List.sorted_cons.mpr ⟨hhead, hres.1⟩
      · intro y hy
        rcases List.mem_cons.mp hy with hy | hy
        · exact hy ▸ bufMin_le_bufMean b bs
        · exact le_of_lt (lt_of_le_of_lt (bufMin_le_bufMean b bs) (hhead y hy))

theorem approxScan_sorted (tol : ℚ) (hs : List ℚ) (h : hs.Sorted (· < ·)) :
    (approxScan tol hs []).Sorted (· < ·) := by
  cases hs with
  | nil => rw [approxScan]; exact List.sorted_nil
  | cons x rest =>
    rw [approxScan]
    exact (approxScan_sorted_strong tol rest x []
      (List.sorted_cons.mp h).2 (fun y hy => (List.sorted_cons.mp h).1 y hy)).1

theorem collectHeights_sorted (secs : List (ℚ × ℚ)) :
    (collectHeights secs).Sorted (· < ·) := by
  have hnd : (collectHeights secs).Nodup :=
    ((List.perm_insertionSort _ _).nodup_iff).mpr (List.nodup_dedup _)
  have hle : (collectHeights secs).Sorted (· ≤ ·) := List.sorted_insertionSort _ _
  exact (hle.and hnd).imp fun hab => lt_of_le_of_ne hab.1 hab.2

/-- Claim C1 (amended): for every list of section bounds and every positive
tolerance, the meshgrid returned by Core.meshing is sorted strictly
increasing.  (The second half of the original claim, that adjacent meshgrid
elements are more than the tolerance apart, is false: see the
counterexample.) -/
theorem C1_meshingGrid_sorted (secs : List (ℚ × ℚ)) (tol : ℚ) (hpos : 0 < tol) :
    (meshingGrid secs tol).Sorted (· < ·) := by
  have h := approxScan_sorted tol (collectHeights secs) (collectHeights_sorted secs)
  have hnd : (approxScan tol (collectHeights secs) []).Nodup :=
    h.imp fun hab => ne_of_lt hab
  rw [meshingGrid, List.dedup_eq_self.mpr hnd,
    List.Sorted.insertionSort_eq (h.imp fun hab => le_of_lt hab)]
  exact h

/-- Claim C1, witness for the amended theorem at a concrete input. -/
theorem C1_meshingGrid_sorted_witness :
    (0 : ℚ) < 1 ∧ (meshingGrid [(0, 1), (1, 6/5)] 1).Sorted (· < ·) :=
  ⟨by norm_num, C1_meshingGrid_sorted [(0, 1), (1, 6/5)] 1 (by norm_num)⟩

/-- Claim C1, counterexample to the original claim: with bounds
0, 1 and 1.2 and tolerance 1, the heights 0 and 1 are clustered to the mean
0.5 while 1.2 stays alone, so the returned meshgrid is [0.5, 1.2] whose two
adjacent elements differ by 0.7, which is within the tolerance 1. -/
theorem C1_separation_counterexample :
    meshingGrid [(0, 1), (1, 6/5)] 1 = [1/2, 6/5] ∧
      ¬ (meshingGrid [(0, 1), (1, 6/5)] 1).Chain' (fun a b => 1 < b - a) := by
  have heval : meshingGrid [(0, 1), (1, 6/5)] 1 = [1/2, 6/5] := by
    norm_num [meshingGrid, collectHeights, approxScan, bufMin, bufMax, bufMean,
      List.insertionSort, List.orderedInsert, List.dedup, List.pwFilter,
      List.flatMap, abs_le]
  refine ⟨heval, ?_⟩
  rw [heval]
  norm_num [List.chain'_cons, List.chain'_singleton]

/-! ## The full meshing step: snapping section bounds onto the grid
(src/core.py lines 171-185)

After the meshgrid is built, Core.meshing walks the grid heights in
ascending order and, for every section bound whose distance to the grid
height is in (0, tolerance], overwrites the bound with the grid height;
finally the coolant bounds are set to (min meshgrid, max meshgrid).
Core.meshing reads self.sections, which after Core.specifyID contains the
coolant section (every case script calls specifyID before meshing), so the
state is the list of the other sections' bounds together with the coolant
bounds, the coolant being the last entry of the traversed list. -/

/-- One bound against one grid height (lines 175-179): overwritten when the
distance is positive and at most the tolerance. -/
def snap1 (tol g b : ℚ) : ℚ := if 0 < |g - b| ∧ |g - b| ≤ tol then g else b

/-- One pass of the snapping loop: a single grid height applied to both
bounds of every section. -/
def snapPass (tol g : ℚ) (bs : List (ℚ × ℚ)) : List (ℚ × ℚ) :=
  bs.map fun p => (snap1 tol g p.1, snap1 tol g p.2)

/-- The snapping loop (lines 172-181): grid heights in ascending order in
the outer loop, sections and their two bounds in the inner loops. -/
def snapAll (tol : ℚ) (grid : List ℚ) (bs : List (ℚ × ℚ)) : List (ℚ × ℚ) :=
  grid.foldl (fun acc g => snapPass tol g acc) bs

/-- The axial state read and written by Core.meshing: the bounds of the
non-coolant sections, and the coolant bounds. -/
structure MCore where
  secBounds : List (ℚ × ℚ)
  coolant : ℚ × ℚ
deriving DecidableEq

/-- Core.meshing (lines 118-185) as a state transformer: build the grid
from all section bounds (coolant included), snap every bound, then set the
coolant bounds to the grid extremes (min = head and max = last of the
sorted grid). -/
def meshingStep (tol : ℚ) (c : MCore) : MCore × List ℚ :=
  let allBounds := c.secBounds ++ [c.coolant]
  let grid := meshingGrid allBounds tol
  let snapped := snapAll tol grid allBounds
  (⟨snapped.dropLast, (grid.headD 0, grid.getLastD 0)⟩, grid)

theorem approxScan_sep (tol : ℚ) (g : ℚ) (rest : List ℚ)
    (hsep : (g :: rest).Chain' (fun a b => tol < b - a)) :
    approxScan tol rest [g] = g :: rest := by
  induction rest generalizing g with
  | nil =>
    rw [approxScan]
    simp [bufMean]
  | cons h t ih =>
    rw [approxScan]
    have hgap : tol < h - g := (List.chain'_cons.mp hsep).1
    have hnc : ¬ (|h - bufMin g []| ≤ tol ∧ |h - bufMax g []| ≤ tol) := by
      simp only [bufMin, bufMax, List.foldr_nil]
      rintro ⟨h1, _⟩
      rw [abs_le] at h1
      linarith [h1.2]
    rw [if_neg hnc]
    have hmean : bufMean g [] = g := by simp [bufMean]
    rw [hmean, ih h (List.chain'_cons.mp hsep).2]

theorem approxScan_of_sep (tol : ℚ) (grid : List ℚ)
    (hsep : grid.Chain' (fun a b => tol < b - a)) :
    approxScan tol grid [] = grid := by
  cases grid with
  | nil => rw [approxScan]
  | cons g rest => rw [approxScan]; exact approxScan_sep tol g rest hsep

theorem perm_of_nodup_mem_iff {l₁ l₂ : List ℚ} (h₁ : l₁.Nodup) (h₂ : l₂.Nodup)
    (h : ∀ a, a ∈ l₁ ↔ a ∈ l₂) : l₁.Perm l₂ := by
  rw [List.perm_iff_count]
  intro a
  by_cases ha : a ∈ l₁
  · rw [List.count_eq_one_of_mem h₁ ha, List.count_eq_one_of_mem h₂ ((h a).mp ha)]
  · rw [List.count_eq_zero_of_not_mem ha,
      List.count_eq_zero_of_not_mem (fun hc => ha ((h a).mpr hc))]

theorem grid_sorted_of_sep (tol : ℚ) (hpos : 0 < tol) (grid : List ℚ)
    (hsep : grid.Chain' (fun a b => tol < b - a)) :
    grid.Sorted (· < ·) := by
  haveI : IsTrans ℚ fun a b : ℚ => tol < b - a :=
    ⟨fun a b c h1 h2 => by linarith⟩
  exact (List.chain'_iff_pairwise.mp hsep).imp fun hab => by linarith

theorem grid_far_of_sep (tol : ℚ) (hpos : 0 < tol) (grid : List ℚ)
    (hsep : grid.Chain' (fun a b => tol < b - a)) :
    ∀ g ∈ grid, ∀ b ∈ grid, g ≠ b → tol < |g - b| := by
  haveI : IsTrans ℚ fun a b : ℚ => tol < b - a :=
    ⟨fun a b c h1 h2 => by linarith⟩
  have hp : grid.Pairwise fun a b => tol < |b - a| :=
    (List.chain'_iff_pairwise.mp hsep).imp fun hab => by
      rw [abs_of_pos (by linarith)]; exact hab
  have hsym : Symmetric fun a b : ℚ => tol < |b - a| := by
    intro a b hab
    show tol < |a - b|
    rwa [abs_sub_comm]
  intro g hg b hb hne
  rw [abs_sub_comm]
  exact hp.forall hsym hg hb hne

theorem snapAll_id (tol : ℚ) (grid : List ℚ) (bs : List (ℚ × ℚ))
    (hfix : ∀ g ∈ grid, ∀ p ∈ bs, snap1 tol g p.1 = p.1 ∧ snap1 tol g p.2 = p.2) :
    snapAll tol grid bs = bs := by
  induction grid with
  | nil => rfl
  | cons g gs ih =>
    rw [snapAll, List.foldl_cons]
    have hpass : snapPass tol g bs = bs := by
      rw [snapPass]
      have hid : ∀ p ∈ bs, (snap1 tol g p.1, snap1 tol g p.2) = id p := by
        intro p hp
        have h12 := hfix g (List.mem_cons_self _ _) p hp
        rw [h12.1, h12.2, id_eq]
      rw [List.map_congr_left hid, List.map_id]
    rw [hpass]
    exact ih fun g' hg' => hfix g' (List.mem_cons_of_mem _ hg')

/-- Claim C4 (amended): Core.meshing is idempotent on an already-unified
core: if every section bound already lies on the grid, every grid element
is some section's bound, the coolant bounds are the grid extremes, and the
adjacent grid elements are separated by more than the tolerance, then
running Core.meshing again returns the same meshgrid and changes no bound.
(Without the separation hypothesis a second run can change the meshgrid:
see the counterexample.) -/
theorem C4_meshing_idempotent (tol : ℚ) (c : MCore) (grid : List ℚ)
    (hpos : 0 < tol)
    (hsep : grid.Chain' (fun a b => tol < b - a))
    (hmem : ∀ p ∈ c.secBounds ++ [c.coolant], p.1 ∈ grid ∧ p.2 ∈ grid)
    (hcover : ∀ g ∈ grid, ∃ p ∈ c.secBounds ++ [c.coolant], p.1 = g ∨ p.2 = g)
    (hcool : c.coolant = (grid.headD 0, grid.getLastD 0)) :
    meshingStep tol c = (c, grid) := by
  obtain ⟨sb, cl⟩ := c
  simp only at hmem hcover hcool
  have hgs : grid.Sorted (· < ·) := grid_sorted_of_sep tol hpos grid hsep
  have hgnd : grid.Nodup := hgs.imp fun hab => ne_of_lt hab
  -- the collected heights are exactly the grid
  have hH : collectHeights (sb ++ [cl]) = grid := by
    rw [collectHeights]
    have hmemiff : ∀ a : ℚ,
        a ∈ ((sb ++ [cl]).flatMap fun s => [s.1, s.2]).dedup ↔ a ∈ grid := by
      intro a
      rw [List.mem_dedup, List.mem_flatMap]
      constructor
      · rintro ⟨p, hp, hap⟩
        rcases List.mem_cons.mp hap with h | h
        · exact h ▸ (hmem p hp).1
        · rw [List.mem_singleton] at h
          exact h ▸ (hmem p hp).2
      · intro ha
        obtain ⟨p, hp, hpa⟩ := hcover a ha
        refine ⟨p, hp, ?_⟩
        rcases hpa with h | h
        · exact h ▸ List.mem_cons_self _ _
        · rw [h]; exact List.mem_cons_of_mem _ (List.mem_singleton.mpr rfl)
    have hperm : (((sb ++ [cl]).flatMap fun s => [s.1, s.2]).dedup).Perm grid :=
      perm_of_nodup_mem_iff (List.nodup_dedup _) hgnd hmemiff
    exact List.eq_of_perm_of_sorted ((List.perm_insertionSort _ _).trans hperm)
      (List.sorted_insertionSort _ _) (hgs.imp fun hab => le_of_lt hab)
  -- re-clustering the grid returns the grid
  have hG : meshingGrid (sb ++ [cl]) tol = grid := by
    rw [meshingGrid, hH, approxScan_of_sep tol grid hsep,
      List.dedup_eq_self.mpr hgnd,
      List.Sorted.insertionSort_eq (hgs.imp fun hab => le_of_lt hab)]
  -- snapping changes nothing: every bound is a grid element
  have hfar := grid_far_of_sep tol hpos grid hsep
  have hfix : ∀ g ∈ grid, ∀ b : ℚ, b ∈ grid → snap1 tol g b = b := by
    intro g hg b hb
    rw [snap1, if_neg]
    rintro ⟨h1, h2⟩
    have hne : g ≠ b := fun hc => by rw [hc, sub_self, abs_zero] at h1; linarith
    linarith [hfar g hg b hb hne]
  have hsnap : snapAll tol grid (sb ++ [cl]) = sb ++ [cl] :=
    snapAll_id tol grid (sb ++ [cl]) fun g hg p hp =>
      ⟨hfix g hg p.1 (hmem p hp).1, hfix g hg p.2 (hmem p hp).2⟩
  -- assemble the meshing step
  simp only [meshingStep, hG, hsnap]
  rw [List.dropLast_concat]
  rw [← hcool]

/-- Claim C4, witness for the amended theorem: a core whose single section
and coolant both span exactly the grid [0, 2], with tolerance 1, is left
unchanged by Core.meshing. -/
theorem C4_meshing_idempotent_witness :
    meshingStep 1 ⟨[(0, 2)], (0, 2)⟩ = (⟨[(0, 2)], (0, 2)⟩, [0, 2]) :=
  C4_meshing_idempotent 1 ⟨[(0, 2)], (0, 2)⟩ [0, 2]
    (by norm_num)
    (by norm_num [List.chain'_cons, List.chain'_singleton])
    (by
      intro p hp
      have hp2 : p = (0, 2) := by
        rcases List.mem_append.mp hp with h | h
        · exact List.mem_singleton.mp h
        · exact List.mem_singleton.mp h
      rw [hp2]
      exact ⟨List.mem_cons_self _ _, List.mem_cons_of_mem _ (List.mem_singleton.mpr rfl)⟩)
    (by
      intro g hg
      refine ⟨(0, 2), by simp, ?_⟩
      rcases List.mem_cons.mp hg with h | h
      · exact Or.inl h.symm
      · rw [List.mem_singleton] at h
        exact Or.inr h.symm)
    rfl

/-- Claim C4, counterexample to the original claim: with section bounds
(0, 1) and (1, 1.2), default coolant bounds (0, 0), and tolerance 1, a
first run of Core.meshing gives the meshgrid [0.5, 1.2], but the snapping
loop then moves every bound first to 0.5 and afterwards (since
|1.2 - 0.5| = 0.7 is within the tolerance) on to 1.2; a second run on the
resulting state clusters the remaining heights 0.5 and 1.2 together and
returns the different meshgrid [0.85], also changing the section bounds
again. -/
theorem C4_counterexample :
    meshingStep 1 ⟨[(0, 1), (1, 6/5)], (0, 0)⟩ =
      (⟨[(6/5, 6/5), (6/5, 6/5)], (1/2, 6/5)⟩, [1/2, 6/5]) ∧
    meshingStep 1 ⟨[(6/5, 6/5), (6/5, 6/5)], (1/2, 6/5)⟩ =
      (⟨[(17/20, 17/20), (17/20, 17/20)], (17/20, 17/20)⟩, [17/20]) ∧
    ([17/20] : List ℚ) ≠ [1/2, 6/5] := by
  refine ⟨?_, ?_, ?_⟩
  · norm_num [meshingStep, meshingGrid, collectHeights, approxScan, bufMin, bufMax,
      bufMean, snapAll, snapPass, snap1, List.insertionSort, List.orderedInsert,
      List.dedup, List.pwFilter, List.flatMap, abs_le]
  · norm_num [meshingStep, meshingGrid, collectHeights, approxScan, bufMin, bufMax,
      bufMean, snapAll, snapPass, snap1, List.insertionSort, List.orderedInsert,
      List.dedup, List.pwFilter, List.flatMap, abs_le]
  · intro h
    simp only [List.cons.injEq] at h
    exact absurd h.1 (by norm_num)

/-! ## Run-length layer encoder: Assembly.toLAVENDER
(src/assembly.py lines 130-186)

For each mesh cell (meshgrid[idx], meshgrid[idx+1]) the code scans the
assembly's sections in order, maintaining the two flags isUnderAssembly and
isAboveAssembly, and breaks out as soon as a section fully contains the
cell.  The idlist of strings "id" / "count*id" is modelled as a list of
(count, id) pairs; both the section-path merge (check the last entry before
appending, lines 156-169) and the coolant-path merge (append, then merge
the second-to-last entry into the last and pop, lines 172-183) amount to
the same operation pushRun on that list. -/

/-- A section as seen by the encoder: its two bounds and its assigned id. -/
structure ESec where
  lo : ℚ
  hi : ℚ
  secId : ℤ
deriving DecidableEq

/-- The per-cell scan over the assembly's sections (lines 147-169): update
the two flags for each section in order, and stop at the first section that
fully contains the cell, returning its id together with the flags as they
stand at that point. -/
def scanSecs (lo hi : ℚ) : List ESec → Bool → Bool → Option ℤ × Bool × Bool
  | [], u, a => (none, u, a)
  | s :: rest, u, a =>
    let u' := u && !(decide (s.lo ≤ lo))
    let a' := a && !(decide (hi ≤ s.hi))
    if s.lo ≤ lo ∧ hi ≤ s.hi then (some s.secId, u', a')
    else scanSecs lo hi rest u' a'

/-- Append one cell's id to the run-length list: increment the last run
when it carries the same id, otherwise start a new run of length one. -/
def pushRun (runs : List (ℕ × ℤ)) (v : ℤ) : List (ℕ × ℤ) :=
  match runs.getLast? with
  | some (n, w) => if w = v then runs.dropLast ++ [(n + 1, v)] else runs ++ [(1, v)]
  | none => [(1, v)]

/-- Process one mesh cell (lines 144-183): a containing section's id is
pushed; otherwise the coolant id is pushed when the cell is under or above
the assembly; otherwise the cell is skipped and the list is unchanged. -/
def encodeCell (secs : List ESec) (coolantId : ℤ) (runs : List (ℕ × ℤ))
    (lo hi : ℚ) : List (ℕ × ℤ) :=
  match scanSecs lo hi secs true true with
  | (some i, _, _) => pushRun runs i
  | (none, u, a) => if u then pushRun runs coolantId
      else if a then pushRun runs coolantId else runs

/-- The run-length record emitted for one assembly: walk the consecutive
mesh-cell pairs in order. -/
def encodeRuns (secs : List ESec) (coolantId : ℤ) (mesh : List ℚ) :
    List (ℕ × ℤ) :=
  (mesh.zip mesh.tail).foldl (fun runs p => encodeCell secs coolantId runs p.1 p.2) []

/-- Total expansion length of a run-length record. -/
def runLenTotal (runs : List (ℕ × ℤ)) : ℕ := (runs.map Prod.fst).sum

/-- Whether the per-cell scan classifies a cell: contained in some section,
or under the assembly, or above it. -/
def cellClassified (secs : List ESec) (lo hi : ℚ) : Bool :=
  match scanSecs lo hi secs true true with
  | (some _, _, _) => true
  | (none, u, a) => u || a

theorem pushRun_chain (runs : List (ℕ × ℤ)) (v : ℤ)
    (h : runs.Chain' fun a b => a.2 ≠ b.2) :
    (pushRun runs v).Chain' fun a b => a.2 ≠ b.2 := by
  rw [pushRun]
  rcases hlast : runs.getLast? with _ | ⟨n, w⟩
  · exact List.chain'_singleton _
  · have hne : runs ≠ [] := by
      intro hc
      rw [hc] at hlast
      exact absurd hlast (by simp)
    have hdecomp : runs = runs.dropLast ++ [(n, w)] := by
      conv_lhs => rw [← List.dropLast_append_getLast hne]
      rw [List.getLast?_eq_getLast runs hne] at hlast
      rw [Option.some_inj.mp hlast]
    dsimp only
    split_ifs with hw
    · rw [hdecomp] at h
      rw [List.chain'_append] at h ⊢
      refine ⟨h.1, List.chain'_singleton _, ?_⟩
      intro x hx y hy
      rw [List.head?_cons, Option.mem_some_iff] at hy
      have := h.2.2 x hx (n, w) (by rw [List.head?_cons, Option.mem_some_iff])
      rw [← hy]
      rw [← hw]
      exact this
    · rw [List.chain'_append]
      refine ⟨h, List.chain'_singleton _, ?_⟩
      intro x hx y hy
      rw [hlast, Option.mem_some_iff] at hx
      rw [List.head?_cons, Option.mem_some_iff] at hy
      rw [← hx, ← hy]
      exact hw

theorem pushRun_total (runs : List (ℕ × ℤ)) (v : ℤ) :
    runLenTotal (pushRun runs v) = runLenTotal runs + 1 := by
  rw [pushRun]
  rcases hlast : runs.getLast? with _ | ⟨n, w⟩
  · have : runs = [] := List.getLast?_eq_none_iff.mp hlast
    rw [this]
    rfl
  · have hne : runs ≠ [] := by
      intro hc
      rw [hc] at hlast
      exact absurd hlast (by simp)
    have hdecomp : runs = runs.dropLast ++ [(n, w)] := by
      conv_lhs => rw [← List.dropLast_append_getLast hne]
      rw [List.getLast?_eq_getLast runs hne] at hlast
      rw [Option.some_inj.mp hlast]
    dsimp only
    split_ifs with hw
    · conv_rhs => rw [hdecomp]
      rw [runLenTotal, runLenTotal, List.map_append, List.map_append,
        List.sum_append, List.sum_append]
      simp only [List.map_cons, List.map_nil, List.sum_cons, List.sum_nil]
      omega
    · rw [runLenTotal, runLenTotal, List.map_append, List.sum_append]
      simp only [List.map_cons, List.map_nil, List.sum_cons, List.sum_nil]
      omega

theorem encodeCell_cases (secs : List ESec) (cid : ℤ) (runs : List (ℕ × ℤ))
    (lo hi : ℚ) :
    (∃ v, encodeCell secs cid runs lo hi = pushRun runs v) ∨
      encodeCell secs cid runs lo hi = runs := by
  rw [encodeCell]
  rcases hs : scanSecs lo hi secs true true with ⟨o, u, a⟩
  rcases o with _ | i
  · rcases u with _ | _
    · rcases a with _ | _
      · right; rfl
      · left; exact ⟨cid, rfl⟩
    · left; exact ⟨cid, rfl⟩
  · left; exact ⟨i, rfl⟩

theorem encodeCell_total (secs : List ESec) (cid : ℤ) (runs : List (ℕ × ℤ))
    (lo hi : ℚ) :
    runLenTotal (encodeCell secs cid runs lo hi) =
      runLenTotal runs + (if cellClassified secs lo hi then 1 else 0) := by
  rw [encodeCell, cellClassified]
  rcases hs : scanSecs lo hi secs true true with ⟨o, u, a⟩
  rcases o with _ | i
  · rcases u with _ | _
    · rcases a with _ | _
      · simp
      · simp [pushRun_total]
    · simp [pushRun_total]
  · simp [pushRun_total]

/-- Claim C3: the run-length record emitted by Assembly.toLAVENDER never
contains two adjacent runs with the same identifier; consecutive cells
resolving to the same id (the coolant-filler id included, also across the
below-assembly/above-assembly boundary) are merged into a single run.
Proved without any contiguity assumption on the sections. -/
theorem C3_encode_no_adjacent_duplicates (secs : List ESec) (coolantId : ℤ)
    (mesh : List ℚ) :
    (encodeRuns secs coolantId mesh).Chain' fun a b => a.2 ≠ b.2 := by
  rw [encodeRuns]
  have hstep : ∀ (cells : List (ℚ × ℚ)) (runs : List (ℕ × ℤ)),
      (runs.Chain' fun a b => a.2 ≠ b.2) →
      ((cells.foldl (fun rs p => encodeCell secs coolantId rs p.1 p.2) runs).Chain'
        fun a b => a.2 ≠ b.2) := by
    intro cells
    induction cells with
    | nil => exact fun runs h => h
    | cons c cs ih =>
      intro runs h
      rw [List.foldl_cons]
      apply ih
      rcases encodeCell_cases secs coolantId runs c.1 c.2 with ⟨v, hv⟩ | hv
      · rw [hv]; exact pushRun_chain runs v h
      · rw [hv]; exact h
  exact hstep _ [] List.chain'_nil

/-- Claim C2 (amended): a mesh cell that is neither under the assembly nor
above it nor contained in one section is silently skipped: no error is
raised, the encoder keeps going, and the total expansion length of the
emitted record equals the number of classifiable cells (so it falls short
of the number of mesh cells exactly when such gap/overlap cells exist). -/
theorem C2_encode_silently_skips (secs : List ESec) (coolantId : ℤ)
    (mesh : List ℚ) :
    runLenTotal (encodeRuns secs coolantId mesh) =
      ((mesh.zip mesh.tail).filter fun p => cellClassified secs p.1 p.2).length := by
  rw [encodeRuns]
  have hstep : ∀ (cells : List (ℚ × ℚ)) (runs : List (ℕ × ℤ)),
      runLenTotal (cells.foldl (fun rs p => encodeCell secs coolantId rs p.1 p.2) runs) =
        runLenTotal runs + (cells.filter fun p => cellClassified secs p.1 p.2).length := by
    intro cells
    induction cells with
    | nil => intro runs; rw [List.foldl_nil, List.filter_nil, List.length_nil, Nat.add_zero]
    | cons c cs ih =>
      intro runs
      rw [List.foldl_cons, ih, encodeCell_total, List.filter_cons]
      rcases cellClassified secs c.1 c.2 with _ | _
      · simp
      · simp only [if_true, List.length_cons]
        omega
  rw [hstep _ []]
  simp [runLenTotal]

/-- Claim C2, counterexample to the original claim: mesh [0, 1, 2, 3] and
sections (0,1) id 11 and (2,3) id 22 leave the middle cell (1, 2)
unclassifiable (a gap), yet the encoder silently returns the record
[(1, 11), (1, 22)] for the remaining cells: total expansion 2 instead of
the 3 mesh cells, and no error. -/
theorem C2_counterexample :
    encodeRuns [⟨0, 1, 11⟩, ⟨2, 3, 22⟩] 7 [0, 1, 2, 3] = [(1, 11), (1, 22)] ∧
      runLenTotal (encodeRuns [⟨0, 1, 11⟩, ⟨2, 3, 22⟩] 7 [0, 1, 2, 3]) = 2 ∧
      (([0, 1, 2, 3] : List ℚ).length - 1) = 3 := by
  refine ⟨?_, ?_, rfl⟩
  · norm_num [encodeRuns, encodeCell, scanSecs, pushRun, runLenTotal,
      List.zip, List.zipWith, List.foldl]
  · norm_num [encodeRuns, encodeCell, scanSecs, pushRun, runLenTotal,
      List.zip, List.zipWith, List.foldl]

/-! ## Core structural check, completion and serialization gate
(src/core.py lines 68-116 and 234-240, src/assembly.py lines 188-205)

Assembly.check sorts the sections by lower bound and reports a warning for
every section whose lower bound does not equal its predecessor's upper
bound, returning False in that case.  Core.check verifies that the ring
number matches the lattice length, that ring r holds 6r assemblies (one
for r = 0), and that every assembly passes its check.  Core.complete
raises ValueError when the check fails, otherwise it runs specifyID and
sets completed.  Core.toTULIP/toLAVENDER raise RuntimeError while
completed is unset; Core.addRing merely appends a ring to the lattice.
The serialized text itself is irrelevant to the claims, so toTULIP is
modelled up to its completion gate. -/

/-- A section as seen by the structural check: its axial bounds. -/
structure CAssembly where
  sections : List (ℚ × ℚ)
deriving DecidableEq

/-- The contiguity walk of Assembly.check (lines 194-203): each section's
lower bound must equal the previous section's upper bound. -/
def contiguousFrom : ℚ → List (ℚ × ℚ) → Bool
  | _, [] => true
  | prev, s :: rest => (decide (prev = s.1)) && contiguousFrom s.2 rest

/-- Assembly.check (lines 188-205): sort the sections by lower bound, then
walk them accumulating the pass flag. -/
def assemblyCheck (a : CAssembly) : Bool :=
  match List.insertionSort (fun s t : ℚ × ℚ => s.1 ≤ t.1) a.sections with
  | [] => true
  | s :: rest => contiguousFrom s.2 rest

/-- The core state touched by check, complete, addRing and the
serialization gates. -/
structure CCore where
  ring : ℕ
  lattice : List (List CAssembly)
  completed : Bool
deriving DecidableEq

/-- Core.check (lines 92-116): ring count versus declared ring number,
6r assemblies in ring r (one in ring 0), and every assembly's own check;
all failures are printed as warnings and folded into the returned flag. -/
def coreCheck (c : CCore) : Bool :=
  (decide (c.ring = c.lattice.length)) &&
    c.lattice.enum.all fun rk =>
      (decide ((if rk.1 > 0 then 6 * rk.1 else 1) = rk.2.length)) &&
        rk.2.all assemblyCheck

/-- Core.complete (lines 82-90): raise ValueError when the check fails,
otherwise assign the identifiers (not represented in this state) and set
the completed flag. -/
def coreComplete (c : CCore) : Except String CCore :=
  if coreCheck c then Except.ok { c with completed := true }
  else Except.error "Core check not passed. Please check up model again."

/-- Core.addRing (lines 68-80): append the ring to the lattice; nothing
else is touched, in particular the completed flag and the assigned
identifiers are left as they are. -/
def addRing (c : CCore) (ring : List CAssembly) : CCore :=
  { c with lattice := c.lattice ++ [ring] }

/-- The completion gate of Core.toTULIP (lines 238-240); the serialized
text that follows the gate is not needed by the claims and is eluded to
Unit. -/
def coreToTULIP (c : CCore) : Except String Unit :=
  if ¬ c.completed then
    Except.error "Core has not completed yet. Please call Core.complete() first."
  else Except.ok ()

/-- Claim C5 (amended): a core whose structural check fails (for instance
from a ring-count mismatch or a section discontinuity, both mere
consistency problems) is NOT completed: Core.complete raises ValueError,
no ID assignment happens and the core never becomes completed, so
serialization stays blocked. -/
theorem C5_complete_halts_on_failed_check (c : CCore) (h : coreCheck c = false) :
    coreComplete c = Except.error "Core check not passed. Please check up model again." := by
  rw [coreComplete, h]
  rfl

/-- Claim C5, witness: a core declaring 2 rings but holding only one. -/
theorem C5_complete_halts_on_failed_check_witness :
    coreComplete ⟨2, [[⟨[(0, 1)]⟩]], false⟩ =
      Except.error "Core check not passed. Please check up model again." :=
  C5_complete_halts_on_failed_check ⟨2, [[⟨[(0, 1)]⟩]], false⟩ (by decide)

/-- Claim C5, counterexample to the original claim: on the same core with
a mere ring-count mismatch, Core.complete raises instead of proceeding, so
the core never reports completed = true. -/
theorem C5_counterexample :
    coreCheck ⟨2, [[⟨[(0, 1)]⟩]], false⟩ = false ∧
      coreComplete ⟨2, [[⟨[(0, 1)]⟩]], false⟩ ≠
        Except.ok ⟨2, [[⟨[(0, 1)]⟩]], true⟩ := by
  refine ⟨by decide, ?_⟩
  intro hc
  rw [coreComplete] at hc
  rw [if_neg (by decide)] at hc
  exact absurd hc (by simp)

/-- Claim C7 (amended): Core.addRing does not invalidate anything: the
completed flag (and with it the assigned identifiers) survives the lattice
change, so toTULIP still succeeds on a core completed before the
modification; serialization is not blocked until IDs are reassigned. -/
theorem C7_addRing_keeps_completed (c : CCore) (ring : List CAssembly)
    (h : c.completed = true) :
    (addRing c ring).completed = true ∧
      coreToTULIP (addRing c ring) = Except.ok () := by
  refine ⟨h, ?_⟩
  rw [coreToTULIP, if_neg]
  rw [addRing]
  simp [h]

/-- Claim C7, witness: the completed single-ring core, after a spurious
addRing, still serializes. -/
theorem C7_addRing_keeps_completed_witness :
    (addRing ⟨1, [[⟨[(0, 1)]⟩]], true⟩ [⟨[(0, 1)]⟩]).completed = true ∧
      coreToTULIP (addRing ⟨1, [[⟨[(0, 1)]⟩]], true⟩ [⟨[(0, 1)]⟩]) = Except.ok () :=
  C7_addRing_keeps_completed ⟨1, [[⟨[(0, 1)]⟩]], true⟩ [⟨[(0, 1)]⟩] rfl

/-- Claim C7, counterexample to the original claim: a well-formed one-ring
core is completed, a second ring is then added (invalidating nothing), and
toTULIP still succeeds even though the lattice changed after the last ID
assignment. -/
theorem C7_counterexample :
    coreComplete ⟨1, [[⟨[(0, 1)]⟩]], false⟩ = Except.ok ⟨1, [[⟨[(0, 1)]⟩]], true⟩ ∧
      coreToTULIP (addRing ⟨1, [[⟨[(0, 1)]⟩]], true⟩
        [⟨[(0, 1)]⟩, ⟨[(0, 1)]⟩, ⟨[(0, 1)]⟩, ⟨[(0, 1)]⟩, ⟨[(0, 1)]⟩, ⟨[(0, 1)]⟩]) =
        Except.ok () := by
  constructor
  · rw [coreComplete, if_pos (by decide)]
  · rw [coreToTULIP, if_neg (by decide)]

/-! ## Canonical ID assignment: Core.specifyID (src/core.py lines 187-232)

Python deduplicates assemblies, sections and materials by object identity;
the model gives every material and section an explicit identity key, so
value equality of the model records is object identity of the source.  A
section's supercell partner (Section.scSection) is a section object whose
own further link is never read by specifyID, so the partner is kept as a
plain section record.  specifyID mutates .id on every collected object;
the model exposes this as a lookup of the object's position in the sorted
list, and the unset id -1 (set in the constructors) for objects never
collected. -/

/-- A material: identity key plus the name used as the sort key. -/
structure Mat where
  key : ℕ
  name : String
deriving DecidableEq

/-- The record of a section read by specifyID: identity key, name,
equivalence method, and the rod and region entries (characteristic size
and material). -/
structure SecCore where
  key : ℕ
  name : String
  eqMethod : String
  rod : List (ℚ × Mat)
  region : List (ℚ × Mat)
deriving DecidableEq

/-- A placed section: its record together with its optional supercell
partner (Section.scSection). -/
structure SSec where
  core : SecCore
  sc : Option SecCore
deriving DecidableEq

/-- An assembly as traversed by specifyID: location label and sections. -/
structure SAssembly where
  location : String
  sections : List SSec
deriving DecidableEq

/-- The core as traversed by specifyID: the lattice and the coolant
section. -/
structure SCore where
  lattice : List (List SAssembly)
  coolant : SecCore
deriving DecidableEq

/-- The section set built by specifyID (lines 196-213): every placed
section, the supercell partner of every section using the supercell
equivalence method, and the coolant.  (When a supercell section has no
partner the Python code would add None to the set and crash while sorting;
the model only covers sections with an actual partner.) -/
def collectSections (c : SCore) : List SecCore :=
  ((c.lattice.flatten.flatMap fun a => a.sections.flatMap fun s =>
      (if s.core.eqMethod = "supercell" then s.sc.toList else []) ++ [s.core])
    ++ [c.coolant]).dedup

/-- The material set built by specifyID (lines 208-215): the rod and
region materials of every placed section, and the region materials of the
coolant.  Materials referenced only by a supercell partner are not
traversed. -/
def collectMaterials (c : SCore) : List Mat :=
  ((c.lattice.flatten.flatMap fun a => a.sections.flatMap fun s =>
      s.core.rod.map Prod.snd ++ s.core.region.map Prod.snd)
    ++ c.coolant.region.map Prod.snd).dedup

/-- The section sort key (line 219): equivalence method and name joined by
a space. -/
def sectionKey (s : SecCore) : String := s.eqMethod ++ " " ++ s.name

/-- Sections sorted by their key (line 219). -/
def sortedSections (c : SCore) : List SecCore :=
  List.insertionSort (fun a b => sectionKey a ≤ sectionKey b) (collectSections c)

/-- Materials sorted by name (line 220). -/
def sortedMaterials (c : SCore) : List Mat :=
  List.insertionSort (fun a b : Mat => a.name ≤ b.name) (collectMaterials c)

/-- Position of an object in a list, by identity. -/
def posOf {α : Type} [DecidableEq α] (m : α) : List α → Option ℕ
  | [] => none
  | x :: xs => if x = m then some 0 else (posOf m xs).map (· + 1)

/-- The id written by specifyID into a section object: its position in the
sorted section list plus one (lines 224-225), or the unset id -1 for a
section that was never collected. -/
def sectionIdOf (c : SCore) (s : SecCore) : ℤ :=
  match posOf s (sortedSections c) with
  | some i => (i : ℤ) + 1
  | none => -1

/-- The id written by specifyID into a material object: its position in
the sorted material list plus one (lines 226-227), or the unset id -1 for
a material that was never collected. -/
def materialIdOf (c : SCore) (m : Mat) : ℤ :=
  match posOf m (sortedMaterials c) with
  | some i => (i : ℤ) + 1
  | none => -1

theorem posOf_isSome_of_mem {α : Type} [DecidableEq α] {m : α} :
    ∀ {l : List α}, m ∈ l → (posOf m l).isSome = true := by
  intro l
  induction l with
  | nil => intro h; exact absurd h (List.not_mem_nil m)
  | cons x xs ih =>
    intro h
    rw [posOf]
    split_ifs with hx
    · rfl
    · rcases List.mem_cons.mp h with h | h
      · exact absurd h.symm hx
      · have hsome := ih h
        cases hpm : posOf m xs with
        | none => rw [hpm] at hsome; exact absurd hsome (by simp)
        | some i => rfl

theorem posOf_eq_none_of_not_mem {α : Type} [DecidableEq α] {m : α} :
    ∀ {l : List α}, m ∉ l → posOf m l = none := by
  intro l
  induction l with
  | nil => intro _; rfl
  | cons x xs ih =>
    intro h
    rw [posOf, if_neg fun hx => h (by rw [← hx]; exact List.mem_cons_self x xs),
      ih fun hx => h (List.mem_cons_of_mem x hx), Option.map_none']

/-- Claim C6 (amended): for every core, every section of a placed assembly
that uses the supercell equivalence method and links an actual partner
section gets that partner a positive identifier from Core.specifyID.  (The
other half of the original claim is false: the materials referenced only
by the partner's rod or region entries are never collected, so their id
stays at the unset value -1; see the counterexample.) -/
theorem C6_supercell_partner_gets_id (c : SCore) (a : SAssembly) (s : SSec)
    (p : SecCore) (ha : a ∈ c.lattice.flatten) (hs : s ∈ a.sections)
    (heq : s.core.eqMethod = "supercell") (hp : s.sc = some p) :
    0 < sectionIdOf c p := by
  have hmem : p ∈ collectSections c := by
    rw [collectSections, List.mem_dedup, List.mem_append]
    left
    rw [List.mem_flatMap]
    refine ⟨a, ha, ?_⟩
    rw [List.mem_flatMap]
    refine ⟨s, hs, ?_⟩
    rw [if_pos heq, hp, List.mem_append]
    left
    rw [Option.toList_some]
    exact List.mem_singleton.mpr rfl
  have hmem' : p ∈ sortedSections c :=
    (List.perm_insertionSort _ _).mem_iff.mpr hmem
  have hsome := posOf_isSome_of_mem hmem'
  rw [sectionIdOf]
  rcases hpos : posOf p (sortedSections c) with _ | i
  · rw [hpos] at hsome
    exact absurd hsome (by simp)
  · simp only
    omega

/-- Claim C6, witness: a one-assembly core whose single section uses the
supercell method; its partner receives a positive id. -/
theorem C6_supercell_partner_gets_id_witness :
    0 < sectionIdOf
      ⟨[[⟨"01A01", [⟨⟨11, "s", "supercell", [], []⟩,
          some ⟨10, "p", "homo", [(1, ⟨1, "x"⟩)], []⟩⟩]⟩]],
        ⟨12, "c", "homo", [], [(1, ⟨2, "w"⟩)]⟩⟩
      ⟨10, "p", "homo", [(1, ⟨1, "x"⟩)], []⟩ :=
  C6_supercell_partner_gets_id _
    ⟨"01A01", [⟨⟨11, "s", "supercell", [], []⟩,
      some ⟨10, "p", "homo", [(1, ⟨1, "x"⟩)], []⟩⟩]⟩
    ⟨⟨11, "s", "supercell", [], []⟩, some ⟨10, "p", "homo", [(1, ⟨1, "x"⟩)], []⟩⟩
    ⟨10, "p", "homo", [(1, ⟨1, "x"⟩)], []⟩
    (by simp) (List.mem_singleton.mpr rfl) rfl rfl

/-- Claim C6, counterexample to the original claim: in the same core the
material x is referenced only by the supercell partner's rod entry;
specifyID never traverses the partner's rod or region lists, so x is not
collected and keeps the unset id -1 instead of receiving a positive
canonical identifier. -/
theorem C6_counterexample :
    materialIdOf
      ⟨[[⟨"01A01", [⟨⟨11, "s", "supercell", [], []⟩,
          some ⟨10, "p", "homo", [(1, ⟨1, "x"⟩)], []⟩⟩]⟩]],
        ⟨12, "c", "homo", [], [(1, ⟨2, "w"⟩)]⟩⟩
      ⟨1, "x"⟩ = -1 := by
  rw [materialIdOf]
  have hnot : (⟨1, "x"⟩ : Mat) ∉ sortedMaterials
      ⟨[[⟨"01A01", [⟨⟨11, "s", "supercell", [], []⟩,
          some ⟨10, "p", "homo", [(1, ⟨1, "x"⟩)], []⟩⟩]⟩]],
        ⟨12, "c", "homo", [], [(1, ⟨2, "w"⟩)]⟩⟩ := by
    intro h
    have hmem := (List.perm_insertionSort _ _).mem_iff.mp h
    rw [collectMaterials, List.mem_dedup] at hmem
    simp only [List.flatten, List.flatMap_cons, List.flatMap_nil, List.map_cons,
      List.map_nil, List.append_nil, List.nil_append, List.mem_append,
      List.mem_cons, List.not_mem_nil, List.mem_singleton] at hmem
    rcases hmem with h | h
    · exact absurd h (by simp)
    · exact absurd h (by simp)
  rw [posOf_eq_none_of_not_mem hnot]

/-! ## Mesh densifier: cormesh (src/cormesh.py lines 18-96)

The deck is modelled by its parsed content: the layer-height list (line
31) and the per-assembly run-length sequences (lines 32-38), a run "n*m"
being the pair (n, m) and a bare "m" the pair (1, m).  File handling and
line re-emission are formatting only; the semantic output is the dense
layer list and the adjusted run lists. -/

/-- Python round(x, 4): round half to even, on exact rationals. -/
def roundHalfEven (q : ℚ) : ℤ :=
  if q - ⌊q⌋ < 1/2 then ⌊q⌋
  else if q - ⌊q⌋ > 1/2 then ⌊q⌋ + 1
  else if ⌊q⌋ % 2 = 0 then ⌊q⌋ else ⌊q⌋ + 1

/-- round(height / factor, 4) (line 52). -/
def round4 (q : ℚ) : ℚ := (roundHalfEven (q * 10000) : ℚ) / 10000

/-- Densify one layer (lines 43-54): keep a layer within the threshold
(split-factor 0), otherwise replace it by ceil(h / threshold) equal
sub-layers of the rounded height, recording factor - 1 extra cells. -/
def densifyLayer (thr h : ℚ) : List ℚ × ℕ :=
  if h ≤ thr then ([h], 0)
  else
    let factor := (⌈h / thr⌉).toNat
    (List.replicate factor (round4 (h / factor)), factor - 1)

/-- The dense layer-height list and, per original layer, the number of
extra cells inserted for it (lines 41-54, lists height_layer_dense and
factors_dense). -/
def densifyHeights (thr : ℚ) : List ℚ → List ℚ × List ℕ
  | [] => ([], [])
  | h :: rest =>
    let d := densifyLayer thr h
    let ds := densifyHeights thr rest
    (d.1 ++ ds.1, d.2 :: ds.2)

/-- Adjust one assembly's run-length sequence (lines 82-92): a run of num
original layers starting at position cnt absorbs the extra cells recorded
for the layers it spans, sum(factors[:cnt+num]) - sum(factors[:cnt]). -/
def densifyRuns (factors : List ℕ) : List (ℕ × ℤ) → ℕ → List (ℕ × ℤ)
  | [], _ => []
  | (num, mat) :: rest, cnt =>
    let factor := (factors.take (cnt + num)).sum - (factors.take cnt).sum
    let num' := if factor > 0 then num + factor else num
    (num', mat) :: densifyRuns factors rest (cnt + num)

theorem densifyRuns_zero_factors (n : ℕ) :
    ∀ (runs : List (ℕ × ℤ)) (cnt : ℕ),
      densifyRuns (List.replicate n 0) runs cnt = runs := by
  intro runs
  induction runs with
  | nil => intro cnt; rfl
  | cons r rest ih =>
    intro cnt
    obtain ⟨num, mat⟩ := r
    rw [densifyRuns]
    have hsum : ∀ k, ((List.replicate n (0 : ℕ)).take k).sum = 0 := by
      intro k
      rw [List.take_replicate, List.sum_replicate, smul_zero]
    rw [hsum, hsum]
    simp only [Nat.sub_zero, gt_iff_lt, lt_irrefl, if_false]
    rw [ih]

/-- Claim C8: when the threshold is strictly larger than every layer
height, the densifier is a semantic no-op: the dense layer-height list
equals the input list (all split factors are zero) and every assembly's
run-length sequence is returned unchanged, so both expanded sequences of
the output deck equal those of the input deck. -/
theorem C8_densify_noop (thr : ℚ) (hs : List ℚ) (runs : List (ℕ × ℤ)) (cnt : ℕ)
    (hthr : ∀ h ∈ hs, h < thr) :
    densifyHeights thr hs = (hs, List.replicate hs.length 0) ∧
      densifyRuns (List.replicate hs.length 0) runs cnt = runs := by
  refine ⟨?_, densifyRuns_zero_factors hs.length runs cnt⟩
  induction hs with
  | nil => rfl
  | cons h rest ih =>
    have hh : densifyLayer thr h = ([h], 0) :=
      if_pos (le_of_lt (hthr h (List.mem_cons_self h rest)))
    rw [densifyHeights, hh, ih fun x hx => hthr x (List.mem_cons_of_mem h hx)]
    rfl

/-- Claim C8, witness: layers [1, 2] with threshold 3 and one run (2, 5)
pass through the densifier unchanged. -/
theorem C8_densify_noop_witness :
    densifyHeights 3 [1, 2] = ([1, 2], [0, 0]) ∧
      densifyRuns [0, 0] [(2, 5)] 0 = [(2, 5)] :=
  C8_densify_noop 3 [1, 2] [(2, 5)] 0 (by
    intro h hh
    rcases List.mem_cons.mp hh with h1 | h1
    · rw [h1]; norm_num
    · rw [List.mem_singleton.mp h1]; norm_num)

/-! ## Core.copy and the Core constructor
(src/core.py lines 12-26 and 624-638)

Core.__init__ declares the four parameters name, ring, pitch and coolant,
none of which has a default; the Core(name=name, ring=self.ring) call
inside Core.copy supplies only two of them, so under Python call semantics
the call raises TypeError before the constructor body runs, and the rest
of Core.copy is unreachable. -/

/-- The required parameters of Core.__init__ (line 12). -/
def coreInitParams : List String := ["name", "ring", "pitch", "coolant"]

/-- The keyword arguments of the Core(...) call inside Core.copy
(line 632). -/
def coreCopyCallArgs : List String := ["name", "ring"]

/-- Core.copy up to its constructor call: Python raises TypeError when a
required parameter of the callee receives no argument; on success the rest
of the method would run (copy the lattice and call complete). -/
def coreCopyOutcome (_nm : String) : Except String Unit :=
  if coreInitParams.all (fun p => coreCopyCallArgs.contains p) then Except.ok ()
  else Except.error "TypeError: Core.__init__ missing required positional arguments"

/-- Claim C10: for every Core instance and every name, Core.copy raises
TypeError before returning, because its constructor call omits the
required pitch and coolant parameters; Core.copy never yields a copied
core. -/
theorem C10_copy_raises_TypeError (nm : String) :
    coreCopyOutcome nm =
      Except.error "TypeError: Core.__init__ missing required positional arguments" := by
  rw [coreCopyOutcome, if_neg]
  intro h
  have hp := List.all_eq_true.mp h "pitch" (by
    rw [coreInitParams]
    exact List.mem_cons_of_mem _ (List.mem_cons_of_mem _ (List.mem_cons_self _ _)))
  rw [coreCopyCallArgs] at hp
  revert hp
  decide

/-! ## Hexagonal lattice row traversal: Core.toLAVENDER
(src/core.py lines 401-430)

The hex_conf block is emitted row by row; row l (0-based, 2*ring - 1 rows)
gathers lattice coordinates (r, k) in four passes: from the outer ring
inwards (120-240 degrees), along the row's innermost ring (60-120 and
240-300 degrees), the single assembly on the 60/300 degree line, and from
the inner ring outwards (300-60 degrees).  The integer arithmetic of the
source, including np.sign, is kept verbatim; only the lattice lookup
self.lattice[r][k] is dropped, leaving the emitted coordinates. -/

/-- np.sign on an integer. -/
def intSign (x : ℤ) : ℤ := if 0 < x then 1 else if x < 0 then -1 else 0

/-- The (ring, clock) coordinates emitted for row l (lines 403-428), with
R the ring count of the core and d the row's distance to the center
line. -/
def rowCoords (R : ℕ) (l : ℕ) : List (ℤ × ℤ) :=
  let d : ℤ := |(R : ℤ) - 1 - (l : ℤ)|
  (((List.range (R - 1 - d.toNat)).map fun j : ℕ =>
        ((R : ℤ) - 1 - (j : ℤ), 5 * ((R : ℤ) - 1 - (j : ℤ)) + (j : ℤ) - (l : ℤ)))
    ++ ((List.range d.toNat).map fun j : ℕ =>
        (d, (if 0 < d then 4 * d else 1) + (d + (j : ℤ)) * intSign ((R : ℤ) - 1 - (l : ℤ))))
    ++ [(d, if (R : ℤ) - 1 - (l : ℤ) < 0 then 2 * d else 0)]
    ++ ((List.range (R - 1 - d.toNat)).map fun j : ℕ =>
        (1 + (j : ℤ) + d, (l : ℤ) + (1 + (j : ℤ) + d) + 1 - (R : ℤ))))

/-- The whole row-by-row traversal (line 403): rows 0 to 2R - 2. -/
def traverseCoords (R : ℕ) : List (ℤ × ℤ) :=
  ((List.range (2 * R - 1)).map fun l => rowCoords R l).flatten

/-- The slots of ring r of a full hexagonal lattice: the single center for
r = 0, otherwise the 6r clockwise positions. -/
def ringSlots (r : ℕ) : List (ℤ × ℤ) :=
  if r = 0 then [(0, 0)]
  else (List.range (6 * r)).map fun k : ℕ => ((r : ℤ), (k : ℤ))

/-- All slots of a full hexagonal lattice with R rings. -/
def allSlots (R : ℕ) : List (ℤ × ℤ) :=
  ((List.range R).map ringSlots).flatten

theorem rowCoords_first (R : ℕ) (hR : 1 ≤ R) :
    rowCoords (R + 1) 0 =
      ((List.range R).map fun k : ℕ => ((R : ℤ), 5 * (R : ℤ) + (k : ℤ))) ++ [((R : ℤ), 0)] := by
  have hR' : (0 : ℤ) < (R : ℤ) := by exact_mod_cast hR
  simp only [rowCoords, Nat.cast_zero, Nat.cast_add, Nat.cast_one, sub_zero,
    add_sub_cancel_right, Int.abs_natCast, Int.toNat_natCast, Nat.add_sub_cancel,
    Nat.sub_self, List.range_zero, List.map_nil, List.nil_append, List.append_nil,
    if_pos hR', intSign, mul_one, if_neg (not_lt.mpr (le_of_lt hR'))]
  congr 1
  apply List.map_congr_left
  intro j hj
  simp only [Prod.mk.injEq, true_and]
  ring

theorem rowCoords_last (R : ℕ) (hR : 1 ≤ R) :
    rowCoords (R + 1) (2 * R) =
      ((List.range R).map fun k : ℕ => ((R : ℤ), 3 * (R : ℤ) - (k : ℤ))) ++
        [((R : ℤ), 2 * (R : ℤ))] := by
  have hR' : (0 : ℤ) < (R : ℤ) := by exact_mod_cast hR
  have hm : ((R + 1 : ℕ) : ℤ) - 1 - ((2 * R : ℕ) : ℤ) = -(R : ℤ) := by push_cast; ring
  simp only [rowCoords]
  rw [hm]
  simp only [abs_neg, Int.abs_natCast, Int.toNat_natCast, Nat.add_sub_cancel,
    Nat.sub_self, List.range_zero, List.map_nil, List.nil_append, List.append_nil,
    if_pos hR', intSign, if_neg (by omega : ¬(0 : ℤ) < -(R : ℤ)),
    if_pos (by omega : -(R : ℤ) < 0)]
  congr 1
  apply List.map_congr_left
  intro j hj
  simp only [Prod.mk.injEq, true_and]
  ring

theorem rowCoords_shift (R l : ℕ) (hR : 1 ≤ R) (hl : l < 2 * R - 1) :
    rowCoords (R + 1) (l + 1) =
      ((R : ℤ), 4 * (R : ℤ) + ((R : ℤ) - 1 - (l : ℤ))) ::
        (rowCoords R l ++ [((R : ℤ), (l : ℤ) + 1)]) := by
  have hm : ((R + 1 : ℕ) : ℤ) - 1 - ((l + 1 : ℕ) : ℤ) = (R : ℤ) - 1 - (l : ℤ) := by
    push_cast; ring
  simp only [rowCoords]
  rw [hm, Int.abs_eq_natAbs, Int.toNat_natCast]
  have hDle : ((R : ℤ) - 1 - (l : ℤ)).natAbs ≤ R - 1 := by omega
  have hrange : R + 1 - 1 - ((R : ℤ) - 1 - (l : ℤ)).natAbs
      = (R - 1 - ((R : ℤ) - 1 - (l : ℤ)).natAbs) + 1 := by omega
  rw [hrange]
  nth_rewrite 1 [List.range_succ_eq_map]
  rw [List.range_succ, List.map_cons, List.map_map, List.map_append]
  rw [List.cons_append, List.cons_append, List.cons_append]
  congr 1
  · -- the new first element, from pass 1 at j = 0
    simp only [Prod.mk.injEq]
    constructor
    · push_cast; ring
    · push_cast; ring
  simp only [List.append_assoc]
  congr 1
  · -- pass 1 for the inner rings
    apply List.map_congr_left
    intro j hj
    simp only [Function.comp_apply, Prod.mk.injEq]
    constructor
    · push_cast; ring
    · push_cast; ring
  congr 2
  -- pass 4 for the inner rings, and the new last element
  congr 1
  · apply List.map_congr_left
    intro j hj
    simp only [Prod.mk.injEq, true_and]
    push_cast; ring
  · simp only [List.map_cons, List.map_nil, List.cons.injEq, Prod.mk.injEq, and_true]
    constructor
    · omega
    · omega

theorem traverse_decomp (R : ℕ) (hR : 1 ≤ R) :
    traverseCoords (R + 1) =
      rowCoords (R + 1) 0 ++
        ((((List.range (2 * R - 1)).map fun l => rowCoords (R + 1) (l + 1)).flatten)
          ++ rowCoords (R + 1) (2 * R)) := by
  have hidx : List.range (2 * (R + 1) - 1) =
      (0 :: (List.range (2 * R - 1)).map Nat.succ) ++ [2 * R] := by
    have h1 : 2 * (R + 1) - 1 = (2 * R) + 1 := by omega
    rw [h1, List.range_succ]
    have h2 : 2 * R = (2 * R - 1) + 1 := by omega
    rw [h2, List.range_succ_eq_map]
    have h3 : 2 * R - 1 + 1 = 2 * R := by omega
    rw [h3]
  rw [traverseCoords, hidx, List.map_append, List.flatten_append, List.map_cons,
    List.flatten_cons, List.map_map]
  simp only [List.map_cons, List.map_nil, List.flatten_cons, List.flatten_nil,
    List.append_nil, List.append_assoc]
  rfl

theorem flatten_coe_sum {α : Type} : ∀ L : List (List α),
    ((L.flatten : List α) : Multiset α) = (L.map fun l : List α => (l : Multiset α)).sum := by
  intro L
  induction L with
  | nil => rfl
  | cons a L ih =>
    rw [List.flatten_cons, List.map_cons, List.sum_cons, ← Multiset.coe_add, ih]

theorem sum_map_add_mset {α : Type} (f g : ℕ → Multiset α) : ∀ ns : List ℕ,
    (ns.map fun n => f n + g n).sum = (ns.map f).sum + (ns.map g).sum := by
  intro ns
  induction ns with
  | nil => simp
  | cons n ns ih =>
    simp only [List.map_cons, List.sum_cons, ih]
    rw [add_add_add_comm]

theorem coe_map_sum_singleton {α : Type} (f : ℕ → α) : ∀ ns : List ℕ,
    ((ns.map f : List α) : Multiset α) = (ns.map fun n => ({f n} : Multiset α)).sum := by
  intro ns
  induction ns with
  | nil => rfl
  | cons n ns ih =>
    rw [List.map_cons, List.map_cons, List.sum_cons, ← ih, ← Multiset.cons_coe,
      ← Multiset.singleton_add]

theorem middle_perm (R : ℕ) (hR : 1 ≤ R) :
    (((List.range (2 * R - 1)).map fun l => rowCoords (R + 1) (l + 1)).flatten).Perm
      (traverseCoords R ++
        ((List.range (2 * R - 1)).map fun l : ℕ =>
          ((R : ℤ), 4 * (R : ℤ) + ((R : ℤ) - 1 - (l : ℤ)))) ++
        ((List.range (2 * R - 1)).map fun l : ℕ => ((R : ℤ), (l : ℤ) + 1))) := by
  have hrows : ((List.range (2 * R - 1)).map fun l => rowCoords (R + 1) (l + 1)) =
      ((List.range (2 * R - 1)).map fun l : ℕ =>
        (((R : ℤ), 4 * (R : ℤ) + ((R : ℤ) - 1 - (l : ℤ))) ::
          (rowCoords R l ++ [((R : ℤ), (l : ℤ) + 1)]))) :=
    List.map_congr_left fun l hl => rowCoords_shift R l hR (List.mem_range.mp hl)
  rw [← Multiset.coe_eq_coe, hrows, flatten_coe_sum, List.map_map]
  have hterm : ∀ l : ℕ,
      ((((((R : ℤ), 4 * (R : ℤ) + ((R : ℤ) - 1 - (l : ℤ))) ::
          (rowCoords R l ++ [((R : ℤ), (l : ℤ) + 1)])) : List (ℤ × ℤ)) : Multiset (ℤ × ℤ)))
        = ({((R : ℤ), 4 * (R : ℤ) + ((R : ℤ) - 1 - (l : ℤ)))} : Multiset (ℤ × ℤ)) +
            (((rowCoords R l : List (ℤ × ℤ)) : Multiset (ℤ × ℤ)) +
              ({((R : ℤ), (l : ℤ) + 1)} : Multiset (ℤ × ℤ))) := by
    intro l
    rw [← Multiset.cons_coe, ← Multiset.singleton_add, ← Multiset.coe_add,
      Multiset.coe_singleton]
  have hmap : ((List.range (2 * R - 1)).map fun l : ℕ =>
      ((((((R : ℤ), 4 * (R : ℤ) + ((R : ℤ) - 1 - (l : ℤ))) ::
        (rowCoords R l ++ [((R : ℤ), (l : ℤ) + 1)])) : List (ℤ × ℤ)) : Multiset (ℤ × ℤ)))) =
      ((List.range (2 * R - 1)).map fun l : ℕ =>
        ({((R : ℤ), 4 * (R : ℤ) + ((R : ℤ) - 1 - (l : ℤ)))} : Multiset (ℤ × ℤ)) +
          (((rowCoords R l : List (ℤ × ℤ)) : Multiset (ℤ × ℤ)) +
            ({((R : ℤ), (l : ℤ) + 1)} : Multiset (ℤ × ℤ)))) :=
    List.map_congr_left fun l _ => hterm l
  simp only [Function.comp_def]
  rw [hmap]
  rw [sum_map_add_mset
    (fun l : ℕ => ({((R : ℤ), 4 * (R : ℤ) + ((R : ℤ) - 1 - (l : ℤ)))} : Multiset (ℤ × ℤ)))
    (fun l : ℕ => ((rowCoords R l : Multiset (ℤ × ℤ)) +
      ({((R : ℤ), (l : ℤ) + 1)} : Multiset (ℤ × ℤ))))]
  rw [sum_map_add_mset
    (fun l : ℕ => (rowCoords R l : Multiset (ℤ × ℤ)))
    (fun l : ℕ => ({((R : ℤ), (l : ℤ) + 1)} : Multiset (ℤ × ℤ)))]
  rw [← Multiset.coe_add, ← Multiset.coe_add]
  rw [traverseCoords, flatten_coe_sum, List.map_map]
  simp only [Function.comp_def]
  rw [coe_map_sum_singleton
    (fun l : ℕ => ((R : ℤ), 4 * (R : ℤ) + ((R : ℤ) - 1 - (l : ℤ)))),
    coe_map_sum_singleton (fun l : ℕ => ((R : ℤ), (l : ℤ) + 1))]
  abel

theorem range'_glue {s m t n u : ℕ} (h1 : t = s + m) (h2 : u = m + n) :
    List.range' s m ++ List.range' t n = List.range' s u := by
  subst h1
  subst h2
  rw [List.range'_append_1, Nat.add_comm]

/-- The clock positions gathered for the outermost ring, as plain numbers:
the first row contributes 5R..6R-1 and 0, the shifted middle rows
contribute 5R-1 down to 3R+1 (pass 1) and 1..2R-1 (pass 4), and the final
row contributes 3R down to 2R+1 and 2R; together each of 0..6R-1 exactly
once. -/
theorem ring_ranges (R : ℕ) (hR : 1 ≤ R) :
    ((((List.range R).map fun k => 5 * R + k : List ℕ) : Multiset ℕ) + {0})
      + ((((List.range (2 * R - 1)).map fun l => 5 * R - 1 - l : List ℕ) : Multiset ℕ)
        + ((((List.range (2 * R - 1)).map fun l => 1 + l : List ℕ) : Multiset ℕ)
          + ((((List.range R).map fun k => 3 * R - k : List ℕ) : Multiset ℕ) + {2 * R})))
      = (List.range (6 * R) : Multiset ℕ) := by
  have hA : ((List.range R).map fun k => 5 * R + k) = List.range' (5 * R) R :=
    (List.range'_eq_map_range _ _).symm
  have hC : ((List.range (2 * R - 1)).map fun l => 5 * R - 1 - l) =
      (List.range' (3 * R + 1) (2 * R - 1)).reverse := by
    rw [List.reverse_range']
    exact (List.map_congr_left fun i hi => by omega).symm
  have hD : ((List.range (2 * R - 1)).map fun l => 1 + l) =
      List.range' 1 (2 * R - 1) := (List.range'_eq_map_range _ _).symm
  have hE : ((List.range R).map fun k => 3 * R - k) =
      (List.range' (2 * R + 1) R).reverse := by
    rw [List.reverse_range']
    exact (List.map_congr_left fun i hi => by omega).symm
  have h0 : ({0} : Multiset ℕ) = (List.range' 0 1 : Multiset ℕ) := rfl
  have h2R : ({2 * R} : Multiset ℕ) = (List.range' (2 * R) 1 : Multiset ℕ) := by
    rw [List.range'_one, Multiset.coe_singleton]
  rw [hA, hC, hD, hE, h0, h2R, Multiset.coe_reverse, Multiset.coe_reverse,
    List.range_eq_range']
  have hstep : ((List.range' (5 * R) R : Multiset ℕ) + (List.range' 0 1 : Multiset ℕ))
      + ((List.range' (3 * R + 1) (2 * R - 1) : Multiset ℕ)
        + ((List.range' 1 (2 * R - 1) : Multiset ℕ)
          + ((List.range' (2 * R + 1) R : Multiset ℕ)
            + (List.range' (2 * R) 1 : Multiset ℕ))))
      = (List.range' 0 1 : Multiset ℕ) + ((List.range' 1 (2 * R - 1) : Multiset ℕ)
        + ((List.range' (2 * R) 1 : Multiset ℕ) + ((List.range' (2 * R + 1) R : Multiset ℕ)
          + ((List.range' (3 * R + 1) (2 * R - 1) : Multiset ℕ)
            + (List.range' (5 * R) R : Multiset ℕ))))) := by
    abel
  rw [hstep,
    Multiset.coe_add,
    range'_glue (by omega : 5 * R = (3 * R + 1) + (2 * R - 1))
      (by omega : 3 * R - 1 = (2 * R - 1) + R),
    Multiset.coe_add,
    range'_glue (by omega : 3 * R + 1 = (2 * R + 1) + R)
      (by omega : 4 * R - 1 = R + (3 * R - 1)),
    Multiset.coe_add,
    range'_glue (by omega : 2 * R + 1 = 2 * R + 1)
      (by omega : 4 * R = 1 + (4 * R - 1)),
    Multiset.coe_add,
    range'_glue (by omega : 2 * R = 1 + (2 * R - 1))
      (by omega : 6 * R - 1 = (2 * R - 1) + 4 * R),
    Multiset.coe_add,
    range'_glue (by omega : 1 = 0 + 1) (by omega : 6 * R = 1 + (6 * R - 1))]

theorem new_ring_perm (R : ℕ) (hR : 1 ≤ R) :
    (rowCoords (R + 1) 0 ++
      ((((List.range (2 * R - 1)).map fun l : ℕ =>
          ((R : ℤ), 4 * (R : ℤ) + ((R : ℤ) - 1 - (l : ℤ)))) ++
        (((List.range (2 * R - 1)).map fun l : ℕ => ((R : ℤ), (l : ℤ) + 1)) ++
          rowCoords (R + 1) (2 * R))))).Perm (ringSlots R) := by
  rw [← Multiset.coe_eq_coe, rowCoords_first R hR, rowCoords_last R hR, ringSlots,
    if_neg (by omega : ¬ R = 0)]
  have eA : ((List.range R).map fun k : ℕ => ((R : ℤ), 5 * (R : ℤ) + (k : ℤ))) =
      ((List.range R).map fun k => 5 * R + k).map fun k : ℕ => ((R : ℤ), (k : ℤ)) := by
    rw [List.map_map]
    exact List.map_congr_left fun k hk => by
      simp only [Function.comp_apply, Prod.mk.injEq, true_and]
      push_cast
      ring
  have eC : ((List.range (2 * R - 1)).map fun l : ℕ =>
      ((R : ℤ), 4 * (R : ℤ) + ((R : ℤ) - 1 - (l : ℤ)))) =
      ((List.range (2 * R - 1)).map fun l => 5 * R - 1 - l).map
        fun k : ℕ => ((R : ℤ), (k : ℤ)) := by
    rw [List.map_map]
    refine List.map_congr_left fun l hl => ?_
    have hl' := List.mem_range.mp hl
    simp only [Function.comp_apply, Prod.mk.injEq, true_and]
    omega
  have eD : ((List.range (2 * R - 1)).map fun l : ℕ => ((R : ℤ), (l : ℤ) + 1)) =
      ((List.range (2 * R - 1)).map fun l => 1 + l).map
        fun k : ℕ => ((R : ℤ), (k : ℤ)) := by
    rw [List.map_map]
    exact List.map_congr_left fun l hl => by
      simp only [Function.comp_apply, Prod.mk.injEq, true_and]
      push_cast
      ring
  have eE : ((List.range R).map fun k : ℕ => ((R : ℤ), 3 * (R : ℤ) - (k : ℤ))) =
      ((List.range R).map fun k => 3 * R - k).map fun k : ℕ => ((R : ℤ), (k : ℤ)) := by
    rw [List.map_map]
    refine List.map_congr_left fun k hk => ?_
    have hk' := List.mem_range.mp hk
    simp only [Function.comp_apply, Prod.mk.injEq, true_and]
    omega
  rw [eA, eC, eD, eE]
  simp only [← Multiset.coe_add]
  have s0 : (([((R : ℤ), (0 : ℤ))] : List (ℤ × ℤ)) : Multiset (ℤ × ℤ)) =
      Multiset.map (fun k : ℕ => ((R : ℤ), (k : ℤ))) {0} := by
    rw [Multiset.map_singleton, Multiset.coe_singleton, Nat.cast_zero]
  have s2 : (([((R : ℤ), 2 * (R : ℤ))] : List (ℤ × ℤ)) : Multiset (ℤ × ℤ)) =
      Multiset.map (fun k : ℕ => ((R : ℤ), (k : ℤ))) {2 * R} := by
    rw [Multiset.map_singleton, Multiset.coe_singleton]
    push_cast
    rfl
  rw [s0, s2]
  rw [(Multiset.map_coe (fun k : ℕ => ((R : ℤ), (k : ℤ)))
        ((List.range R).map fun k => 5 * R + k)).symm,
    (Multiset.map_coe (fun k : ℕ => ((R : ℤ), (k : ℤ)))
        ((List.range (2 * R - 1)).map fun l => 5 * R - 1 - l)).symm,
    (Multiset.map_coe (fun k : ℕ => ((R : ℤ), (k : ℤ)))
        ((List.range (2 * R - 1)).map fun l => 1 + l)).symm,
    (Multiset.map_coe (fun k : ℕ => ((R : ℤ), (k : ℤ)))
        ((List.range R).map fun k => 3 * R - k)).symm,
    (Multiset.map_coe (fun k : ℕ => ((R : ℤ), (k : ℤ))) (List.range (6 * R))).symm]
  rw [← Multiset.map_add, ← Multiset.map_add, ← Multiset.map_add, ← Multiset.map_add,
    ← Multiset.map_add]
  rw [ring_ranges R hR]

theorem allSlots_succ (R : ℕ) : allSlots (R + 1) = allSlots R ++ ringSlots R := by
  rw [allSlots, allSlots, List.range_succ, List.map_append, List.flatten_append,
    List.map_cons, List.map_nil, List.flatten_cons, List.flatten_nil, List.append_nil]

theorem traverse_perm (R : ℕ) (hR : 1 ≤ R) : (traverseCoords R).Perm (allSlots R) := by
  induction R with
  | zero => omega
  | succ n ih =>
    rcases Nat.lt_or_ge n 1 with hn | hn
    · interval_cases n
      decide
    · rw [traverse_decomp n hn, allSlots_succ n, ← Multiset.coe_eq_coe]
      simp only [← Multiset.coe_add]
      have hmid := Multiset.coe_eq_coe.mpr (middle_perm n hn)
      simp only [← Multiset.coe_add] at hmid
      rw [hmid]
      have hih := Multiset.coe_eq_coe.mpr (ih hn)
      rw [hih]
      have hring := Multiset.coe_eq_coe.mpr (new_ring_perm n hn)
      simp only [← Multiset.coe_add] at hring
      rw [← hring]
      abel

/-- Claim C9: for a full hexagonal lattice with ring count R >= 1, the row
traversal of Core.toLAVENDER emits 2R - 1 rows (row l built from the
distance-to-center-line d = |R - 1 - l|), and the (ring, clock)
coordinates it emits visit every lattice slot exactly once: they are a
permutation of the full slot set. -/
theorem C9_row_traversal (R : ℕ) (hR : 1 ≤ R) :
    (((List.range (2 * R - 1)).map fun l => rowCoords R l).length = 2 * R - 1) ∧
      (traverseCoords R).Perm (allSlots R) :=
  ⟨by rw [List.length_map, List.length_range], traverse_perm R hR⟩

/-- Claim C9, witness at ring count 3. -/
theorem C9_row_traversal_witness :
    ((((List.range (2 * 3 - 1)).map fun l => rowCoords 3 l).length = 2 * 3 - 1) ∧
      (traverseCoords 3).Perm (allSlots 3)) :=
  C9_row_traversal 3 (by norm_num)

end PySARAX
